import Mathlib

/-!
Verification of the pollon document store (src/main.rs).

Paths are modelled as `String`s; pushing a single normal component onto a
`PathBuf` becomes appending `"/" ++ component`.  The filesystem is a pair of
a directory list and an association list from file paths to their text
content.  Machine integers (`u32`) are `Nat` with an explicit `% 2^32`
where overflow matters.  Fallible operations return `Except ApiError`.
-/

set_option autoImplicit false

deriving instance DecidableEq for Except

namespace Pollon

/-- Mirror of the `ApiError` enum: `simple` for validation messages built in
`path_append_normal`, `io` for filesystem errors.  The UTF-8 variants cannot
arise in the model because every modelled content is already a `String`. -/
inductive ApiError where
  | simple (msg : String) : ApiError
  | io (msg : String) : ApiError
  deriving DecidableEq

/-- A parsed component of `std::path::Path` on a Unix target: `rootDir` for a
leading separator, `curDir` for a leading `.` component, `parentDir` for
`..`, `normal` for an ordinary name.  Unix paths have no drive-prefix
component. -/
inductive PathComponent where
  | rootDir : PathComponent
  | curDir : PathComponent
  | parentDir : PathComponent
  | normal (name : String) : PathComponent
  deriving DecidableEq

/-- First element of `Path::new(s).components()` on Unix: an empty string has
no component; a string starting with the separator starts with `RootDir`;
otherwise the first run of non-separator characters is `.` (CurDir), `..`
(ParentDir) or a normal name. -/
def firstComponent (s : String) : Option PathComponent :=
  match s.data with
  | [] => none
  | c :: cs =>
    if c = '/' then some PathComponent.rootDir
    else
      let p := (c :: cs).takeWhile (fun a => a ≠ '/')
      if p = ['.'] then some PathComponent.curDir
      else if p = ['.', '.'] then some PathComponent.parentDir
      else some (PathComponent.normal (String.mk p))

/-- Mirror of `path_append_normal`: inspect the first parsed component of
`newComponent`; if it is a normal name push exactly that name onto `path`,
otherwise fail with a validation error. -/
def path_append_normal (path : String) (newComponent : String) :
    Except ApiError String :=
  match firstComponent newComponent with
  | some (PathComponent.normal raw) => Except.ok (path ++ "/" ++ raw)
  | some _ =>
      Except.error (ApiError.simple (newComponent ++ " contains invalid component"))
  | none => Except.error (ApiError.simple "Unknown Error")

/-- A string that is a safe single normal path component: nonempty, not one of
the special components, and free of separators. -/
def isNormalComponent (c : String) : Prop :=
  c ≠ "" ∧ c ≠ "." ∧ c ≠ ".." ∧ '/' ∉ c.data

instance (c : String) : Decidable (isNormalComponent c) := by
  unfold isNormalComponent; infer_instance

/-- Iterated sanitized appends: the only sanctioned way the code builds a
path from the library root. -/
def appendAll (root : String) : List String → Except ApiError String
  | [] => Except.ok root
  | s :: rest =>
    match path_append_normal root s with
    | Except.ok p => appendAll p rest
    | Except.error e => Except.error e

/-- The path obtained by pushing the components `cs` under `root`. -/
def underPath (root : String) (cs : List String) : String :=
  cs.foldl (fun a c => a ++ "/" ++ c) root

/-- Rust `str::parse::<u32>`: an optional leading `+` sign, then at least one
ASCII digit, and the value must fit in 32 bits. -/
def parseU32 (s : String) : Option Nat :=
  let ds :=
    match s.data with
    | '+' :: rest => rest
    | cs => cs
  if ds = [] then none
  else if ds.all (fun c => c.isDigit) then
    let v := ds.foldl (fun a c => a * 10 + (c.toNat - 48)) 0
    if v < 4294967296 then some v else none
  else none

/-- Rust `path.strip_suffix(".html").unwrap_or(path)`. -/
def stripHtml (s : String) : String :=
  let cs := s.data
  if cs.length ≥ 5 ∧ cs.drop (cs.length - 5) = ['.', 'h', 't', 'm', 'l'] then
    String.mk (cs.take (cs.length - 5))
  else s

/-- The identity-allocation loop of `document_append` over the directory
entries (name, is-regular-file): start from 0 and, for every regular file
whose stem parses as a `u32`, bump the candidate to `value + 1` (a `u32`
increment, hence the `% 2^32`) whenever `value >= new_canidate`. -/
def computeCandidate (entries : List (String × Bool)) : Nat :=
  entries.foldl
    (fun cand ent =>
      if ent.2 = false then cand
      else
        match parseU32 (stripHtml ent.1) with
        | none => cand
        | some value =>
            if cand ≤ value then (value + 1) % 4294967296 else cand)
    0

/-- The numeric identities present in a directory listing: regular files
whose name, after stripping a trailing `.html`, parses as a `u32`. -/
def numericValues (entries : List (String × Bool)) : List Nat :=
  entries.filterMap
    (fun ent => if ent.2 then parseU32 (stripHtml ent.1) else none)

/-- One more than the maximum of a list of naturals, `0` for the empty
list — the specification-side formulation of the next free identity. -/
def oneMax : List Nat → Nat
  | [] => 0
  | v :: vs => max (v + 1) (oneMax vs)

/-- If `p = d ++ "/" ++ n` for a nonempty separator-free `n`, the name `n` of
`p` as a direct child of directory `d`; otherwise `none`. -/
def childName (d p : String) : Option String :=
  let dd := d.data ++ ['/']
  if p.data.take dd.length = dd then
    let n := p.data.drop dd.length
    if n ≠ [] ∧ '/' ∉ n then some (String.mk n) else none
  else none

/-- The filesystem: a set of directories and a map from file paths to their
text content, both keyed by full path strings. -/
structure Fs where
  dirs : List String
  files : List (String × String)
  deriving DecidableEq

def lookupFile : List (String × String) → String → Option String
  | [], _ => none
  | (q, c) :: rest, p => if q = p then some c else lookupFile rest p

def setFile : List (String × String) → String → String → List (String × String)
  | [], p, b => [(p, b)]
  | (q, c) :: rest, p, b =>
    if q = p then (p, b) :: rest else (q, c) :: setFile rest p b

def eraseFile : List (String × String) → String → List (String × String)
  | [], _ => []
  | (q, c) :: rest, p =>
    if q = p then eraseFile rest p else (q, c) :: eraseFile rest p

def Fs.lookup (fs : Fs) (p : String) : Option String :=
  lookupFile fs.files p

/-- `tokio::fs::read` followed by UTF-8 decoding (always valid here). -/
def Fs.readFile (fs : Fs) (p : String) : Except ApiError String :=
  match fs.lookup p with
  | some c => Except.ok c
  | none => Except.error (ApiError.io "NotFound")

/-- `tokio::fs::write`: create-or-truncate; fails when the parent directory
is absent or the path names a directory. -/
def Fs.writeFile (fs : Fs) (p b : String) : Except ApiError Fs :=
  if fs.dirs.contains p then Except.error (ApiError.io "IsADirectory")
  else if fs.dirs.any (fun d => (childName d p).isSome) then
    Except.ok { dirs := fs.dirs, files := setFile fs.files p b }
  else Except.error (ApiError.io "NotFound")

/-- `OpenOptions::new().write(true).create_new(true)` followed by
`write_all` and `flush`: an exclusive create that fails when the target
already exists. -/
def Fs.createNew (fs : Fs) (p b : String) : Except ApiError Fs :=
  if fs.dirs.contains p then Except.error (ApiError.io "AlreadyExists")
  else if fs.dirs.any (fun d => (childName d p).isSome) then
    match fs.lookup p with
    | some _ => Except.error (ApiError.io "AlreadyExists")
    | none => Except.ok { dirs := fs.dirs, files := setFile fs.files p b }
  else Except.error (ApiError.io "NotFound")

/-- `tokio::fs::remove_file`: fails when the file is absent. -/
def Fs.removeFile (fs : Fs) (p : String) : Except ApiError Fs :=
  match fs.lookup p with
  | some _ => Except.ok { dirs := fs.dirs, files := eraseFile fs.files p }
  | none => Except.error (ApiError.io "NotFound")

/-- Directory entries of `d` with their regular-file flag, as produced by
`read_dir` plus `file_type().is_file()`. -/
def Fs.entries (fs : Fs) (d : String) : List (String × Bool) :=
  fs.files.filterMap (fun e => (childName d e.1).map (fun n => (n, true))) ++
    fs.dirs.filterMap (fun q => (childName d q).map (fun n => (n, false)))

/-- `tokio::fs::read_dir`: fails when the directory is absent. -/
def Fs.readDir (fs : Fs) (d : String) : Except ApiError (List (String × Bool)) :=
  if fs.dirs.contains d then Except.ok (fs.entries d)
  else Except.error (ApiError.io "NotFound")

/-- Rust `node.split(",")`: split on every comma, keeping empty pieces (the
empty string splits to one empty piece). -/
def splitCommaChars : List Char → List (List Char)
  | [] => [[]]
  | c :: rest =>
    if c = ',' then [] :: splitCommaChars rest
    else
      match splitCommaChars rest with
      | [] => [[c]]
      | g :: gs => (c :: g) :: gs

def splitComma (s : String) : List String :=
  (splitCommaChars s.data).map String.mk

/-- The shared two-step path construction of `node_get`, `node_replace` and
`node_delete`: sanitize the document segment onto the library root, then
sanitize `format!("{}.html", node_raw)` onto the document path. -/
def nodePathOf (library docRaw nodeRaw : String) : Except ApiError String := do
  let docPath ← path_append_normal library docRaw
  path_append_normal docPath (nodeRaw ++ ".html")

/-- The path-building loop of the `document` handler for an explicit node
list: for each name, sanitize `format!("{}.html", node)` onto the document
path, failing on the first rejected name. -/
def buildNodePaths (docPath : String) : List String → Except ApiError (List String)
  | [] => Except.ok []
  | n :: rest => do
    let p ← path_append_normal docPath (n ++ ".html")
    let ps ← buildNodePaths docPath rest
    Except.ok (p :: ps)

/-- The rendering loop of the `document` handler: read each path in order and
push its text onto the output, with no separator. -/
def renderPaths (fs : Fs) : List String → Except ApiError String
  | [] => Except.ok ""
  | p :: rest => do
    let c ← fs.readFile p
    let r ← renderPaths fs rest
    Except.ok (c ++ r)

/-- Concatenation with no separator, for specification statements. -/
def concatAll : List String → String
  | [] => ""
  | c :: cs => c ++ concatAll cs

/-- Lexicographic order on character lists, comparing characters by code
point (for UTF-8 strings this is exactly Rust's byte-lexicographic `Ord`
on `String`). -/
def lexLe : List Char → List Char → Bool
  | [], _ => true
  | _ :: _, [] => false
  | a :: as, b :: bs =>
    if a.toNat < b.toNat then true
    else if a.toNat = b.toNat then lexLe as bs else false

/-- Lexicographic order on strings. -/
def strLe (a b : String) : Prop :=
  lexLe a.data b.data = true

instance : DecidableRel strLe := fun a b => by
  unfold strLe; infer_instance

/-- `paths.sort()` on `Vec<String>`: sort into lexicographic string order. -/
def sortStrings (l : List String) : List String :=
  List.insertionSort strLe l

/-- The `GET /:document` handler `document`: sanitize the document segment;
with an explicit `nodes` query, build one path per comma-separated name and
render them in the given order; without it, list the document directory,
collect the entries' full paths, sort them, and render in sorted order. -/
def document (fs : Fs) (library docRaw : String) (nodes : Option String) :
    Except ApiError String := do
  let docPath ← path_append_normal library docRaw
  match nodes with
  | some ns => do
    let paths ← buildNodePaths docPath (splitComma ns)
    renderPaths fs paths
  | none => do
    let entries ← fs.readDir docPath
    let paths := entries.map (fun e => docPath ++ "/" ++ e.1)
    renderPaths fs (sortStrings paths)

/-- The `GET /:document/:node` handler `node_get`. -/
def node_get (fs : Fs) (library docRaw nodeRaw : String) :
    Except ApiError String := do
  let nodePath ← nodePathOf library docRaw nodeRaw
  fs.readFile nodePath

/-- The `PUT /:document/:node` handler `node_replace`: create-or-truncate the
node file with the request body, answering status 205 (Reset Content). -/
def node_replace (fs : Fs) (library docRaw nodeRaw bodyText : String) :
    Except ApiError (Fs × Nat) := do
  let nodePath ← nodePathOf library docRaw nodeRaw
  let fs2 ← fs.writeFile nodePath bodyText
  Except.ok (fs2, 205)

/-- The `DELETE /:document/:node` handler `node_delete`, answering status
205 (Reset Content). -/
def node_delete (fs : Fs) (library docRaw nodeRaw : String) :
    Except ApiError (Fs × Nat) := do
  let nodePath ← nodePathOf library docRaw nodeRaw
  let fs2 ← fs.removeFile nodePath
  Except.ok (fs2, 205)

/-- The `POST /:document` handler `document_append`: sanitize the document
segment, scan the directory for the next free integer identity, then
exclusively create `format!("{}.html", new_canidate)` with the body,
answering status 200. -/
def document_append (fs : Fs) (library docRaw bodyText : String) :
    Except ApiError (Fs × Nat) := do
  let docPath ← path_append_normal library docRaw
  let entries ← fs.readDir docPath
  let nodePath ← path_append_normal docPath
    (Nat.repr (computeCandidate entries) ++ ".html")
  let fs2 ← fs.createNew nodePath bodyText
  Except.ok (fs2, 200)

/-- The process configuration. -/
structure AppState where
  library : String
  deriving DecidableEq

/-- Mirror of `AppState::new`.  The environment is the pair of optional
values of `LIBRARY` and `PWD` (a variable that is unset or not unicode is
`none`), and `canonicalize` is the filesystem oracle for
`fs::canonicalize`, `none` meaning failure.  The result is `none` exactly
when the Rust code panics: `env::var("LIBRARY").unwrap_or(env::var("PWD")
.unwrap())` evaluates its `unwrap_or` argument eagerly, so a missing `PWD`
panics even when `LIBRARY` is set. -/
def AppState.new (libraryVar pwdVar : Option String)
    (canonicalize : String → Option String) : Option AppState :=
  match pwdVar with
  | none => none
  | some pwd =>
    let libraryRaw :=
      match libraryVar with
      | some v => v
      | none => pwd
    some { library := (canonicalize libraryRaw).getD "." }

/-! Helper lemmas about the sanitizer. -/

theorem takeWhile_no_slash_eq_self (l : List Char) (h : '/' ∉ l) :
    l.takeWhile (fun a => a ≠ '/') = l := by
  induction l with
  | nil => rfl
  | cons a as ih =>
    have ha : a ≠ '/' := fun e => h (e ▸ List.mem_cons_self a as)
    have has : '/' ∉ as := fun hm => h (List.mem_cons_of_mem a hm)
    rw [List.takeWhile_cons_of_pos (by simpa using ha), ih has]

theorem firstComponent_normal (s c : String)
    (h : firstComponent s = some (PathComponent.normal c)) :
    isNormalComponent c := by
  unfold firstComponent at h
  split at h
  · exact absurd h (by simp)
  next a as heq =>
    split at h
    · exact absurd h (by simp)
    next hslash =>
      by_cases h1 : (a :: as).takeWhile (fun x => x ≠ '/') = ['.']
      · simp only [h1, reduceIte] at h
        exact absurd h (by simp)
      · by_cases h2 : (a :: as).takeWhile (fun x => x ≠ '/') = ['.', '.']
        · simp only [h1, h2, reduceIte] at h
          exact absurd h (by simp)
        · simp only [h1, h2, reduceIte, Option.some.injEq,
            PathComponent.normal.injEq] at h
          subst h
          have hcons : (a :: as).takeWhile (fun x => x ≠ '/') =
              a :: as.takeWhile (fun x => x ≠ '/') := by
            simp [List.takeWhile_cons, hslash]
          refine ⟨?_, ?_, ?_, ?_⟩
          · intro hc
            have h3 : (a :: as).takeWhile (fun x => x ≠ '/') = [] :=
              congrArg String.data hc
            rw [hcons] at h3
            exact absurd h3 (by simp)
          · intro hc
            have h3 : (a :: as).takeWhile (fun x => x ≠ '/') = ['.'] :=
              congrArg String.data hc
            exact h1 h3
          · intro hc
            have h3 : (a :: as).takeWhile (fun x => x ≠ '/') = ['.', '.'] :=
              congrArg String.data hc
            exact h2 h3
          · intro hmem
            have := List.mem_takeWhile_imp hmem
            simp at this

theorem firstComponent_normal_eq (s c : String)
    (h : firstComponent s = some (PathComponent.normal c)) :
    c = String.mk (s.data.takeWhile (fun a => a ≠ '/')) := by
  unfold firstComponent at h
  split at h
  next heq => exact absurd h (by simp)
  next a as heq =>
    rw [heq]
    split at h
    · exact absurd h (by simp)
    next hslash =>
      by_cases h1 : (a :: as).takeWhile (fun x => x ≠ '/') = ['.']
      · simp only [h1, reduceIte] at h
        exact absurd h (by simp)
      · by_cases h2 : (a :: as).takeWhile (fun x => x ≠ '/') = ['.', '.']
        · simp only [h1, h2, reduceIte] at h
          exact absurd h (by simp)
        · simp only [h1, h2, reduceIte, Option.some.injEq,
            PathComponent.normal.injEq] at h
          exact h.symm

theorem path_append_normal_ok (path s q : String)
    (h : path_append_normal path s = Except.ok q) :
    ∃ c, isNormalComponent c ∧ q = path ++ "/" ++ c ∧
      firstComponent s = some (PathComponent.normal c) := by
  unfold path_append_normal at h
  split at h
  next c heq =>
    refine ⟨c, firstComponent_normal s c heq, ?_, heq⟩
    injection h with h2
    exact h2.symm
  next => exact absurd h (by simp)
  next => exact absurd h (by simp)

theorem appendAll_components : ∀ (segs : List String) (root q : String),
    appendAll root segs = Except.ok q →
    ∃ cs, q = underPath root cs ∧ ∀ c ∈ cs, isNormalComponent c := by
  intro segs
  induction segs with
  | nil =>
    intro root q h
    refine ⟨[], ?_, by simp⟩
    unfold appendAll at h
    injection h with h2
    exact h2.symm
  | cons s rest ih =>
    intro root q h
    unfold appendAll at h
    split at h
    next p heq =>
      obtain ⟨c, hc, hp, _⟩ := path_append_normal_ok root s p heq
      obtain ⟨cs, hq, hcs⟩ := ih p q h
      refine ⟨c :: cs, ?_, ?_⟩
      · rw [hq, hp]; rfl
      · intro x hx
        rcases List.mem_cons.mp hx with hx | hx
        · exact hx ▸ hc
        · exact hcs x hx
    next => exact absurd h (by simp)

theorem underPath_inside : ∀ (cs : List String) (root : String),
    ∃ t, (underPath root cs).data = root.data ++ t := by
  intro cs
  induction cs with
  | nil => intro root; exact ⟨[], by simp [underPath]⟩
  | cons c cs ih =>
    intro root
    obtain ⟨t, ht⟩ := ih (root ++ "/" ++ c)
    refine ⟨'/' :: c.data ++ t, ?_⟩
    have : underPath root (c :: cs) = underPath (root ++ "/" ++ c) cs := rfl
    rw [this, ht]
    simp

/-! C1 and C2: sanitizer behavior. -/

/-- C1: for every untrusted string the sanitizer either fails (and it does
fail whenever the first parsed component is the root marker, the
current-directory or parent-directory component, or the string yields no
component at all) or extends the base path by exactly one normal component;
consequently every path built from the library root by sanitized appends is
the root extended by normal components only, so it stays inside the root. -/
theorem path_append_normal_safe :
    (∀ path s q, path_append_normal path s = Except.ok q →
      ∃ c, isNormalComponent c ∧ q = path ++ "/" ++ c) ∧
    (∀ path s, (firstComponent s = some PathComponent.rootDir ∨
        firstComponent s = some PathComponent.curDir ∨
        firstComponent s = some PathComponent.parentDir ∨
        firstComponent s = none) →
      ∃ e, path_append_normal path s = Except.error e) ∧
    (∀ root segs q, appendAll root segs = Except.ok q →
      ∃ cs, q = underPath root cs ∧ (∀ c ∈ cs, isNormalComponent c) ∧
        ∃ t, q.data = root.data ++ t) := by
  refine ⟨?_, ?_, ?_⟩
  · intro path s q h
    obtain ⟨c, hc, hq, _⟩ := path_append_normal_ok path s q h
    exact ⟨c, hc, hq⟩
  · intro path s h
    unfold path_append_normal
    rcases h with h | h | h | h <;> rw [h] <;> exact ⟨_, rfl⟩
  · intro root segs q h
    obtain ⟨cs, hq, hcs⟩ := appendAll_components segs root q h
    obtain ⟨t, ht⟩ := underPath_inside cs root
    exact ⟨cs, hq, hcs, t, hq ▸ ht⟩

theorem path_append_normal_safe_witness :
    (∃ c, isNormalComponent c ∧ "/lib/notes" = "/lib" ++ "/" ++ c) ∧
    (∃ e, path_append_normal "/lib" ".." = Except.error e) ∧
    (∃ cs, "/lib/d/n" = underPath "/lib" cs ∧
      (∀ c ∈ cs, isNormalComponent c) ∧
      ∃ t, ("/lib/d/n" : String).data = ("/lib" : String).data ++ t) := by
  refine ⟨?_, ?_, ?_⟩
  · exact path_append_normal_safe.1 "/lib" "notes" "/lib/notes" (by decide)
  · exact path_append_normal_safe.2.1 "/lib" ".." (Or.inr (Or.inr (Or.inl (by decide))))
  · exact path_append_normal_safe.2.2 "/lib" ["d", "n"] "/lib/d/n" (by decide)

/-- C2 counterexample: the input `a/b` contains a separator followed by
extra structure, yet the sanitizer succeeds — returning the base extended
by the truncated first component `a` — instead of returning the
"contains invalid component" validation error the claim requires. -/
theorem path_append_normal_truncates_counterexample :
    path_append_normal "/lib" "a/b" = Except.ok "/lib/a" := by decide

/-- C2 amended: an input containing a separator followed by extra structure
is not rejected when its first component is a normal name; whenever the
sanitizer succeeds it has appended exactly the first component of the
input — everything from the first separator on is silently dropped. -/
theorem path_append_normal_first_component_only (path s q : String)
    (h : path_append_normal path s = Except.ok q) :
    q = path ++ "/" ++ String.mk (s.data.takeWhile (fun a => a ≠ '/')) := by
  obtain ⟨c, _, hq, hfc⟩ := path_append_normal_ok path s q h
  rw [hq, firstComponent_normal_eq s c hfc]

theorem path_append_normal_first_component_only_witness :
    "/lib/a" = "/lib" ++ "/" ++
      String.mk (("a/b" : String).data.takeWhile (fun a => a ≠ '/')) :=
  path_append_normal_first_component_only "/lib" "a/b" "/lib/a" (by decide)

/-! Helper lemmas about node filenames. -/

theorem firstComponent_of_safe (s : String) (h1 : s.data ≠ [])
    (h2 : '/' ∉ s.data) (h3 : s ≠ ".") (h4 : s ≠ "..") :
    firstComponent s = some (PathComponent.normal s) := by
  unfold firstComponent
  split
  next heq => exact absurd heq h1
  next a as heq =>
    have ha : a ≠ '/' := fun e => h2 (by
      rw [heq]
      exact List.mem_cons.mpr (Or.inl e.symm))
    rw [if_neg ha]
    have hh : '/' ∉ a :: as := heq ▸ h2
    have htw : (a :: as).takeWhile (fun x => x ≠ '/') = a :: as :=
      takeWhile_no_slash_eq_self _ hh
    have hne1 : a :: as ≠ ['.'] := fun e =>
      h3 (String.ext (show s.data = ("." : String).data from heq.trans e))
    have hne2 : a :: as ≠ ['.', '.'] := fun e =>
      h4 (String.ext (show s.data = (".." : String).data from heq.trans e))
    simp only [htw, if_neg hne1, if_neg hne2, Option.some.injEq,
      PathComponent.normal.injEq]
    rw [← heq]

theorem firstComponent_html (nodeRaw : String) (h : '/' ∉ nodeRaw.data) :
    firstComponent (nodeRaw ++ ".html") =
      some (PathComponent.normal (nodeRaw ++ ".html")) := by
  have hd5 : (".html" : String).data = ['.', 'h', 't', 'm', 'l'] := rfl
  apply firstComponent_of_safe
  · rw [String.data_append, hd5]
    intro he
    have := congrArg List.length he
    simp at this
  · rw [String.data_append, hd5]
    intro hm
    rcases List.mem_append.mp hm with hm | hm
    · exact h hm
    · simp at hm
  · intro he
    have h3 : nodeRaw.data ++ ['.', 'h', 't', 'm', 'l'] = ['.'] := by
      have h4 := congrArg String.data he
      rw [String.data_append, hd5] at h4
      exact h4
    have := congrArg List.length h3
    simp at this
  · intro he
    have h3 : nodeRaw.data ++ ['.', 'h', 't', 'm', 'l'] = ['.', '.'] := by
      have h4 := congrArg String.data he
      rw [String.data_append, hd5] at h4
      exact h4
    have := congrArg List.length h3
    simp at this

theorem path_append_normal_html (docPath nodeRaw : String)
    (h : '/' ∉ nodeRaw.data) :
    path_append_normal docPath (nodeRaw ++ ".html") =
      Except.ok (docPath ++ "/" ++ (nodeRaw ++ ".html")) := by
  unfold path_append_normal
  rw [firstComponent_html nodeRaw h]

theorem nodePathOf_ok (library docRaw nodeRaw p : String)
    (h : nodePathOf library docRaw nodeRaw = Except.ok p) :
    ∃ docPath, path_append_normal library docRaw = Except.ok docPath ∧
      path_append_normal docPath (nodeRaw ++ ".html") = Except.ok p := by
  unfold nodePathOf at h
  cases hdoc : path_append_normal library docRaw with
  | error e =>
    rw [hdoc] at h
    have h2 : (Except.error e : Except ApiError String) = Except.ok p := h
    exact absurd h2 (by simp)
  | ok docPath =>
    rw [hdoc] at h
    have h2 : path_append_normal docPath (nodeRaw ++ ".html") = Except.ok p := h
    exact ⟨docPath, rfl, h2⟩

/-! C5: node filenames. -/

/-- C5 counterexample: for the node name `a/b` the path accessed inside the
document directory is the file `a`, not a file named `a/b.html` (nor
`a.html`): the `.html` suffix is appended before sanitization, and the
sanitizer truncates at the separator, dropping the suffix entirely. -/
theorem node_filename_counterexample :
    nodePathOf "/lib" "d" "a/b" = Except.ok "/lib/d/a" ∧
    (("/lib/d/a" : String) ==
      "/lib" ++ "/" ++ "d" ++ "/" ++ ("a/b" ++ ".html")) = false ∧
    (("/lib/d/a" : String) ==
      "/lib" ++ "/" ++ "d" ++ "/" ++ ("a" ++ ".html")) = false := by
  refine ⟨by decide, by decide, by decide⟩

/-- C5 amended: for every node name containing no separator — in particular
every name the identity scheme generates — the filesystem name accessed
inside the document directory is exactly the node name with `.html`
appended, for all of `node_get`, `node_replace`, `node_delete` and the
create step of `document_append`, which all build their target path with
this same two-step construction. -/
theorem node_filename_html (library docRaw nodeRaw p : String)
    (hn : '/' ∉ nodeRaw.data)
    (h : nodePathOf library docRaw nodeRaw = Except.ok p) :
    ∃ docPath, path_append_normal library docRaw = Except.ok docPath ∧
      p = docPath ++ "/" ++ (nodeRaw ++ ".html") := by
  obtain ⟨docPath, hdoc, hnode⟩ := nodePathOf_ok library docRaw nodeRaw p h
  rw [path_append_normal_html docPath nodeRaw hn] at hnode
  injection hnode with h2
  exact ⟨docPath, hdoc, h2.symm⟩

theorem node_filename_html_witness :
    ∃ docPath, path_append_normal "/lib" "d" = Except.ok docPath ∧
      "/lib/d/n.html" = docPath ++ "/" ++ ("n" ++ ".html") := by
  exact node_filename_html "/lib" "d" "n" "/lib/d/n.html" (by decide) (by decide)

/-! Helper lemmas about the filesystem model. -/

@[simp] theorem ok_bind {α β : Type} (a : α) (f : α → Except ApiError β) :
    (Except.ok a >>= f) = f a := rfl

@[simp] theorem error_bind {α β : Type} (e : ApiError)
    (f : α → Except ApiError β) :
    ((Except.error e : Except ApiError α) >>= f) = Except.error e := rfl

theorem lookupFile_setFile_self : ∀ (files : List (String × String)) (p b : String),
    lookupFile (setFile files p b) p = some b := by
  intro files
  induction files with
  | nil => intro p b; simp [setFile, lookupFile]
  | cons e rest ih =>
    intro p b
    by_cases hq : e.1 = p
    · simp [setFile, hq, lookupFile]
    · simp [setFile, hq, lookupFile, ih]

theorem lookupFile_setFile_other : ∀ (files : List (String × String)) (p b q : String),
    q ≠ p → lookupFile (setFile files p b) q = lookupFile files q := by
  intro files
  induction files with
  | nil =>
    intro p b q hne
    show lookupFile [(p, b)] q = lookupFile [] q
    show (if p = q then some b else lookupFile [] q) = lookupFile [] q
    rw [if_neg (fun h => hne h.symm)]
  | cons e rest ih =>
    intro p b q hne
    obtain ⟨q0, c0⟩ := e
    by_cases hq : q0 = p
    · have hs : setFile ((q0, c0) :: rest) p b = (p, b) :: rest := by
        simp [setFile, hq]
      rw [hs]
      show (if p = q then some b else lookupFile rest q) =
        if q0 = q then some c0 else lookupFile rest q
      rw [if_neg (fun h => hne h.symm),
        if_neg (by rw [hq]; exact fun h => hne h.symm)]
    · have hs : setFile ((q0, c0) :: rest) p b = (q0, c0) :: setFile rest p b := by
        simp [setFile, hq]
      rw [hs]
      show (if q0 = q then some c0 else lookupFile (setFile rest p b) q) =
        if q0 = q then some c0 else lookupFile rest q
      by_cases hqq : q0 = q
      · rw [if_pos hqq, if_pos hqq]
      · rw [if_neg hqq, if_neg hqq]
        exact ih p b q hne

theorem lookupFile_eraseFile_self : ∀ (files : List (String × String)) (p : String),
    lookupFile (eraseFile files p) p = none := by
  intro files
  induction files with
  | nil => intro p; simp [eraseFile, lookupFile]
  | cons e rest ih =>
    intro p
    by_cases hq : e.1 = p
    · simp [eraseFile, hq, ih]
    · simp [eraseFile, hq, lookupFile, ih]

theorem lookupFile_eraseFile_other : ∀ (files : List (String × String)) (p q : String),
    q ≠ p → lookupFile (eraseFile files p) q = lookupFile files q := by
  intro files
  induction files with
  | nil => intro p q _; rfl
  | cons e rest ih =>
    intro p q hne
    obtain ⟨q0, c0⟩ := e
    by_cases hq : q0 = p
    · have hs : eraseFile ((q0, c0) :: rest) p = eraseFile rest p := by
        simp [eraseFile, hq]
      rw [hs, ih p q hne]
      show lookupFile rest q = if q0 = q then some c0 else lookupFile rest q
      rw [if_neg (by rw [hq]; exact fun h => hne h.symm)]
    · have hs : eraseFile ((q0, c0) :: rest) p = (q0, c0) :: eraseFile rest p := by
        simp [eraseFile, hq]
      rw [hs]
      show (if q0 = q then some c0 else lookupFile (eraseFile rest p) q) =
        if q0 = q then some c0 else lookupFile rest q
      by_cases hqq : q0 = q
      · rw [if_pos hqq, if_pos hqq]
      · rw [if_neg hqq, if_neg hqq]
        exact ih p q hne

/-! C6: replace-then-read round trip. -/

/-- C6: with no interleaving operation, writing a node with `node_replace`
and reading it back with `node_get` returns exactly the written body (the
document directory must exist and the node path must not name a
directory, otherwise the write itself fails). -/
theorem replace_then_get (fs : Fs) (library docRaw nodeRaw bodyText p : String)
    (hp : nodePathOf library docRaw nodeRaw = Except.ok p)
    (hnotdir : fs.dirs.contains p = false)
    (hparent : fs.dirs.any (fun d => (childName d p).isSome) = true) :
    ∃ fs2, node_replace fs library docRaw nodeRaw bodyText = Except.ok (fs2, 205) ∧
      node_get fs2 library docRaw nodeRaw = Except.ok bodyText := by
  refine ⟨{ dirs := fs.dirs, files := setFile fs.files p bodyText }, ?_, ?_⟩
  · unfold node_replace
    rw [hp, ok_bind]
    unfold Fs.writeFile
    rw [hnotdir, hparent]
    simp
  · unfold node_get
    rw [hp, ok_bind]
    unfold Fs.readFile Fs.lookup
    simp [lookupFile_setFile_self]

theorem replace_then_get_witness :
    ∃ fs2, node_replace { dirs := ["/lib", "/lib/d"], files := [] }
        "/lib" "d" "n" "B" = Except.ok (fs2, 205) ∧
      node_get fs2 "/lib" "d" "n" = Except.ok "B" :=
  replace_then_get { dirs := ["/lib", "/lib/d"], files := [] }
    "/lib" "d" "n" "B" "/lib/d/n.html" (by decide) (by decide) (by decide)

/-! C9: delete. -/

/-- C9: deleting a node whose file does not exist fails; deleting an
existing node removes exactly that one file — every other file path (in
this or any other document) and the directory set are unchanged. -/
theorem node_delete_spec (fs : Fs) (library docRaw nodeRaw p : String)
    (hp : nodePathOf library docRaw nodeRaw = Except.ok p) :
    (fs.lookup p = none →
      node_delete fs library docRaw nodeRaw = Except.error (ApiError.io "NotFound")) ∧
    (∀ c, fs.lookup p = some c →
      ∃ fs2, node_delete fs library docRaw nodeRaw = Except.ok (fs2, 205) ∧
        fs2.lookup p = none ∧
        (∀ q, q ≠ p → fs2.lookup q = fs.lookup q) ∧
        fs2.dirs = fs.dirs) := by
  constructor
  · intro hnone
    unfold node_delete
    rw [hp, ok_bind]
    unfold Fs.removeFile
    rw [hnone]
    rfl
  · intro c hsome
    refine ⟨{ dirs := fs.dirs, files := eraseFile fs.files p }, ?_, ?_, ?_, rfl⟩
    · unfold node_delete
      rw [hp, ok_bind]
      unfold Fs.removeFile
      rw [hsome]
      rfl
    · unfold Fs.lookup
      exact lookupFile_eraseFile_self fs.files p
    · intro q hq
      unfold Fs.lookup
      exact lookupFile_eraseFile_other fs.files p q hq

theorem node_delete_spec_witness :
    (node_delete (Fs.mk ["/lib", "/lib/d"] [])
      "/lib" "d" "n" = Except.error (ApiError.io "NotFound")) ∧
    ∃ fs2, node_delete
        (Fs.mk ["/lib", "/lib/d"] [("/lib/d/n.html", "B"), ("/lib/d/m.html", "C")])
        "/lib" "d" "n" = Except.ok (fs2, 205) ∧
      fs2.lookup "/lib/d/n.html" = none ∧
      fs2.lookup "/lib/d/m.html" = some "C" := by
  constructor
  · exact (node_delete_spec (Fs.mk ["/lib", "/lib/d"] [])
      "/lib" "d" "n" "/lib/d/n.html" (by decide)).1 (by decide)
  · obtain ⟨fs2, h1, h2, h3, _⟩ :=
      (node_delete_spec
        (Fs.mk ["/lib", "/lib/d"] [("/lib/d/n.html", "B"), ("/lib/d/m.html", "C")])
        "/lib" "d" "n" "/lib/d/n.html" (by decide)).2 "B" (by decide)
    refine ⟨fs2, h1, h2, ?_⟩
    rw [h3 "/lib/d/m.html" (by decide)]
    decide

/-! Helper lemmas for the identity scheme. -/

theorem candFold_eq_oneMax : ∀ (vals : List Nat) (a : Nat),
    (∀ v ∈ vals, v + 1 < 4294967296) →
    vals.foldl (fun c v => if c ≤ v then (v + 1) % 4294967296 else c) a =
      max a (oneMax vals) := by
  intro vals
  induction vals with
  | nil =>
    intro a _
    simp [oneMax]
  | cons v vs ih =>
    intro a h
    have hv : (v + 1) % 4294967296 = v + 1 :=
      Nat.mod_eq_of_lt (h v (List.mem_cons_self v vs))
    have htail : ∀ x ∈ vs, x + 1 < 4294967296 :=
      fun x hx => h x (List.mem_cons_of_mem v hx)
    simp only [List.foldl_cons]
    rw [hv, ih _ htail]
    rw [show oneMax (v :: vs) = max (v + 1) (oneMax vs) from rfl]
    by_cases hav : a ≤ v
    · rw [if_pos hav]
      omega
    · rw [if_neg hav]
      omega

theorem computeCandidate_foldl : ∀ (l : List (String × Bool)) (a : Nat),
    l.foldl
      (fun cand ent =>
        if ent.2 = false then cand
        else
          match parseU32 (stripHtml ent.1) with
          | none => cand
          | some value =>
              if cand ≤ value then (value + 1) % 4294967296 else cand) a =
      (numericValues l).foldl
        (fun c v => if c ≤ v then (v + 1) % 4294967296 else c) a := by
  intro l
  induction l with
  | nil => intro a; rfl
  | cons e rest ih =>
    intro a
    simp only [List.foldl_cons]
    cases he : e.2 with
    | false =>
      have hnv : numericValues (e :: rest) = numericValues rest := by
        simp [numericValues, List.filterMap_cons, he]
      rw [hnv]
      exact ih a
    | true =>
      cases hp : parseU32 (stripHtml e.1) with
      | none =>
        have hnv : numericValues (e :: rest) = numericValues rest := by
          simp [numericValues, List.filterMap_cons, he, hp]
        rw [hnv]
        exact ih a
      | some v =>
        have hnv : numericValues (e :: rest) = v :: numericValues rest := by
          simp [numericValues, List.filterMap_cons, he, hp]
        rw [hnv]
        simp only [List.foldl_cons]
        exact ih (if a ≤ v then (v + 1) % 4294967296 else a)

theorem oneMax_spec : ∀ (l : List Nat), l ≠ [] →
    ∃ m, m ∈ l ∧ (∀ v ∈ l, v ≤ m) ∧ oneMax l = m + 1 := by
  intro l
  induction l with
  | nil => intro h; exact absurd rfl h
  | cons v vs ih =>
    intro _
    rcases eq_or_ne vs [] with hvs | hvs
    · subst hvs
      exact ⟨v, List.mem_cons_self v [], by simp, by simp [oneMax]⟩
    · obtain ⟨m, hmem, hmax, hval⟩ := ih hvs
      refine ⟨max v m, ?_, ?_, ?_⟩
      · rcases Nat.le_total v m with hvm | hvm
        · rw [Nat.max_eq_right hvm]
          exact List.mem_cons_of_mem v hmem
        · rw [Nat.max_eq_left hvm]
          exact List.mem_cons_self v vs
      · intro x hx
        rcases List.mem_cons.mp hx with hx | hx
        · subst hx
          exact Nat.le_max_left x m
        · exact le_trans (hmax x hx) (Nat.le_max_right v m)
      · rw [show oneMax (v :: vs) = max (v + 1) (oneMax vs) from rfl, hval]
        omega

/-! C3: identity allocation. -/

/-- C3 counterexample: over the single entry `4294967295.html` the parsed
value is `u32::MAX`, so the `u32` increment `value + 1` wraps and the
computed identity is `0`, not `1 + max = 4294967296` as the claim states
(in a debug build the increment panics instead). -/
theorem computeCandidate_overflow_counterexample :
    computeCandidate [("4294967295.html", true)] = 0 ∧
    numericValues [("4294967295.html", true)] = [4294967295] ∧
    ((0 : Nat) == 4294967295 + 1) = false := by
  refine ⟨by decide, by decide, by decide⟩

/-- C3 amended: whenever every parsed value is below `u32::MAX` (so the
`u32` increment cannot wrap), the computed identity is `1 + max` over the
regular-file entries whose name, after stripping a trailing `.html`,
parses as a `u32`, and `0` when there is no such entry; non-numeric stems
and non-file entries are ignored. -/
theorem document_append_identity (entries : List (String × Bool))
    (h : ∀ v ∈ numericValues entries, v < 4294967295) :
    (numericValues entries = [] → computeCandidate entries = 0) ∧
    (numericValues entries ≠ [] →
      ∃ m, m ∈ numericValues entries ∧ (∀ v ∈ numericValues entries, v ≤ m) ∧
        computeCandidate entries = m + 1) := by
  have h2 : ∀ v ∈ numericValues entries, v + 1 < 4294967296 := by
    intro v hv
    have := h v hv
    omega
  have hc : computeCandidate entries = oneMax (numericValues entries) := by
    unfold computeCandidate
    rw [computeCandidate_foldl entries 0, candFold_eq_oneMax _ 0 h2]
    simp
  constructor
  · intro he
    rw [hc, he]
    rfl
  · intro hne
    obtain ⟨m, hmem, hmax, hval⟩ := oneMax_spec (numericValues entries) hne
    exact ⟨m, hmem, hmax, by rw [hc, hval]⟩

theorem document_append_identity_witness :
    (∃ m, m ∈ numericValues [("0.html", true), ("1.html", true), ("5.html", true)] ∧
      (∀ v ∈ numericValues [("0.html", true), ("1.html", true), ("5.html", true)],
        v ≤ m) ∧
      computeCandidate [("0.html", true), ("1.html", true), ("5.html", true)] = m + 1) ∧
    computeCandidate [("0.html", true), ("1.html", true), ("5.html", true)] = 6 ∧
    computeCandidate [("x.html", true), ("7.html", false)] = 0 := by
  refine ⟨(document_append_identity
    [("0.html", true), ("1.html", true), ("5.html", true)] (by decide)).2 (by decide),
    by decide, by decide⟩

/-! Helper lemmas for the exclusive create. -/

theorem take_length_append {α : Type} : ∀ (l1 l2 : List α),
    (l1 ++ l2).take l1.length = l1 := by
  intro l1
  induction l1 with
  | nil => intro l2; rfl
  | cons a as ih =>
    intro l2
    show (a :: (as ++ l2)).take (as.length + 1) = a :: as
    rw [List.take_succ_cons, ih l2]

theorem drop_length_append {α : Type} : ∀ (l1 l2 : List α),
    (l1 ++ l2).drop l1.length = l2 := by
  intro l1
  induction l1 with
  | nil => intro l2; rfl
  | cons a as ih =>
    intro l2
    show (a :: (as ++ l2)).drop (as.length + 1) = l2
    rw [List.drop_succ_cons, ih l2]

theorem childName_append (d n : String) (h1 : n.data ≠ []) (h2 : '/' ∉ n.data) :
    childName d (d ++ "/" ++ n) = some n := by
  simp only [childName]
  rw [show (d ++ "/" ++ n).data = (d.data ++ ['/']) ++ n.data from by simp]
  rw [take_length_append, drop_length_append]
  rw [if_pos rfl, if_pos (⟨h1, h2⟩ : n.data ≠ [] ∧ '/' ∉ n.data)]

theorem digitChar_ne_slash (k : Nat) (hk : k < 10) : Nat.digitChar k ≠ '/' := by
  interval_cases k <;> decide

theorem toDigitsCore_no_slash : ∀ (fuel n : Nat) (acc : List Char),
    '/' ∉ acc → '/' ∉ Nat.toDigitsCore 10 fuel n acc := by
  intro fuel
  induction fuel with
  | zero =>
    intro n acc h
    exact h
  | succ f ih =>
    intro n acc h
    have hhead : '/' ∉ Nat.digitChar (n % 10) :: acc := by
      intro hm
      rcases List.mem_cons.mp hm with hm | hm
      · exact digitChar_ne_slash (n % 10) (Nat.mod_lt n (by norm_num)) hm.symm
      · exact h hm
    show '/' ∉ Nat.toDigitsCore 10 (f + 1) n acc
    rw [Nat.toDigitsCore]
    by_cases hnb : n / 10 = 0
    · rw [if_pos hnb]
      exact hhead
    · rw [if_neg hnb]
      exact ih (n / 10) (Nat.digitChar (n % 10) :: acc) hhead

theorem repr_no_slash (n : Nat) : '/' ∉ (Nat.repr n).data := by
  show '/' ∉ (Nat.toDigits 10 n).asString.data
  rw [show (Nat.toDigits 10 n).asString.data = Nat.toDigits 10 n from rfl]
  unfold Nat.toDigits
  exact toDigitsCore_no_slash (n + 1) n [] (by simp)

theorem readDir_ok (fs : Fs) (d : String) (entries : List (String × Bool))
    (h : fs.readDir d = Except.ok entries) :
    fs.dirs.contains d = true ∧ entries = fs.entries d := by
  unfold Fs.readDir at h
  by_cases hc : fs.dirs.contains d = true
  · rw [if_pos hc] at h
    injection h with h2
    exact ⟨hc, h2.symm⟩
  · rw [if_neg hc] at h
    exact absurd h (by simp)

theorem hasParent_of_contains (fs : Fs) (d n : String)
    (hd : fs.dirs.contains d = true) (h1 : n.data ≠ []) (h2 : '/' ∉ n.data) :
    fs.dirs.any (fun x => (childName x (d ++ "/" ++ n)).isSome) = true := by
  rw [List.any_eq_true]
  refine ⟨d, ?_, ?_⟩
  · exact List.elem_iff.mp hd
  · rw [childName_append d n h1 h2]
    rfl

theorem repr_html_data_ne_nil (m : Nat) : (Nat.repr m ++ ".html").data ≠ [] := by
  rw [String.data_append]
  intro he
  have := congrArg List.length he
  simp at this

theorem repr_html_no_slash (m : Nat) : '/' ∉ (Nat.repr m ++ ".html").data := by
  rw [String.data_append]
  intro hm
  rcases List.mem_append.mp hm with hm | hm
  · exact repr_no_slash m hm
  · have hd5 : (".html" : String).data = ['.', 'h', 't', 'm', 'l'] := rfl
    rw [hd5] at hm
    simp at hm

/-! C4: exclusive create, no overwrite. -/

/-- C4: `document_append` creates the new node with an exclusive create: if
the chosen identity's file already exists the operation fails with an
already-exists error (and performs no retry with a different identity — the
handler issues exactly this one create); and a successful append preserves
the content of every pre-existing file, so no existing node is ever
overwritten. -/
theorem document_append_exclusive (fs : Fs)
    (library docRaw bodyText docPath : String) (entries : List (String × Bool))
    (hdoc : path_append_normal library docRaw = Except.ok docPath)
    (hdir : fs.readDir docPath = Except.ok entries) :
    (∀ c, fs.lookup
        (docPath ++ "/" ++ (Nat.repr (computeCandidate entries) ++ ".html")) =
          some c →
      document_append fs library docRaw bodyText =
        Except.error (ApiError.io "AlreadyExists")) ∧
    (∀ fs2 st, document_append fs library docRaw bodyText = Except.ok (fs2, st) →
      ∀ q c, fs.lookup q = some c → fs2.lookup q = some c) := by
  constructor
  · intro c hex
    unfold document_append
    rw [hdoc, ok_bind, hdir, ok_bind,
      path_append_normal_html docPath (Nat.repr (computeCandidate entries))
        (repr_no_slash (computeCandidate entries)), ok_bind]
    unfold Fs.createNew
    by_cases hdirp : fs.dirs.contains
        (docPath ++ "/" ++ (Nat.repr (computeCandidate entries) ++ ".html")) = true
    · rw [if_pos hdirp]
      rfl
    · rw [if_neg hdirp]
      rw [if_pos (hasParent_of_contains fs docPath
        (Nat.repr (computeCandidate entries) ++ ".html")
        (readDir_ok fs docPath entries hdir).1
        (repr_html_data_ne_nil (computeCandidate entries))
        (repr_html_no_slash (computeCandidate entries)))]
      rw [hex]
      rfl
  · intro fs2 st h q c hq
    unfold document_append at h
    rw [hdoc, ok_bind, hdir, ok_bind,
      path_append_normal_html docPath (Nat.repr (computeCandidate entries))
        (repr_no_slash (computeCandidate entries)), ok_bind] at h
    unfold Fs.createNew at h
    by_cases hdirp : fs.dirs.contains
        (docPath ++ "/" ++ (Nat.repr (computeCandidate entries) ++ ".html")) = true
    · rw [if_pos hdirp] at h
      exact absurd h (by simp)
    · rw [if_neg hdirp] at h
      rw [if_pos (hasParent_of_contains fs docPath
        (Nat.repr (computeCandidate entries) ++ ".html")
        (readDir_ok fs docPath entries hdir).1
        (repr_html_data_ne_nil (computeCandidate entries))
        (repr_html_no_slash (computeCandidate entries)))] at h
      cases hex : fs.lookup
          (docPath ++ "/" ++ (Nat.repr (computeCandidate entries) ++ ".html")) with
      | some c0 =>
        rw [hex] at h
        exact absurd h (by simp)
      | none =>
        rw [hex] at h
        have h2 : (Except.ok
            (Fs.mk fs.dirs (setFile fs.files
              (docPath ++ "/" ++ (Nat.repr (computeCandidate entries) ++ ".html"))
              bodyText), 200) : Except ApiError (Fs × Nat)) =
            Except.ok (fs2, st) := h
        injection h2 with h3
        have hfs2 : fs2 = Fs.mk fs.dirs (setFile fs.files
            (docPath ++ "/" ++ (Nat.repr (computeCandidate entries) ++ ".html"))
            bodyText) := (congrArg Prod.fst h3).symm
        rw [hfs2]
        unfold Fs.lookup
        have hne : q ≠
            docPath ++ "/" ++ (Nat.repr (computeCandidate entries) ++ ".html") := by
          intro he
          rw [he] at hq
          rw [hq] at hex
          exact absurd hex (by simp)
        rw [lookupFile_setFile_other fs.files _ bodyText q hne]
        exact hq

theorem document_append_exclusive_witness :
    (document_append
      (Fs.mk ["/lib", "/lib/d"]
        [("/lib/d/0.html", "A"), ("/lib/d/4294967295.html", "B")])
      "/lib" "d" "C" = Except.error (ApiError.io "AlreadyExists")) ∧
    ∀ q cc, (Fs.mk ["/lib", "/lib/d"] [("/lib/d/0.html", "A")]).lookup q = some cc →
      ∃ fs2, document_append (Fs.mk ["/lib", "/lib/d"] [("/lib/d/0.html", "A")])
        "/lib" "d" "C" = Except.ok (fs2, 200) ∧ fs2.lookup q = some cc := by
  constructor
  · exact (document_append_exclusive
      (Fs.mk ["/lib", "/lib/d"]
        [("/lib/d/0.html", "A"), ("/lib/d/4294967295.html", "B")])
      "/lib" "d" "C" "/lib/d" [("0.html", true), ("4294967295.html", true)]
      (by decide) (by decide)).1 "A" (by decide)
  · intro q cc hq
    refine ⟨Fs.mk ["/lib", "/lib/d"] [("/lib/d/0.html", "A"), ("/lib/d/1.html", "C")],
      by decide, ?_⟩
    exact (document_append_exclusive
      (Fs.mk ["/lib", "/lib/d"] [("/lib/d/0.html", "A")])
      "/lib" "d" "C" "/lib/d" [("0.html", true)]
      (by decide) (by decide)).2
      (Fs.mk ["/lib", "/lib/d"] [("/lib/d/0.html", "A"), ("/lib/d/1.html", "C")])
      200 (by decide) q cc hq

/-! Helper lemmas for rendering. -/

theorem renderPaths_concatAll (fs : Fs) (paths contents : List String)
    (h : List.Forall₂ (fun p c => fs.readFile p = Except.ok c) paths contents) :
    renderPaths fs paths = Except.ok (concatAll contents) := by
  induction h with
  | nil => rfl
  | cons hpc _ ih =>
    rw [renderPaths, hpc, ok_bind, ih, ok_bind]
    rfl

theorem lexLe_total : ∀ (a b : List Char), lexLe a b = true ∨ lexLe b a = true := by
  intro a
  induction a with
  | nil => intro b; left; rfl
  | cons x xs ih =>
    intro b
    cases b with
    | nil => right; rfl
    | cons y ys =>
      show (if x.toNat < y.toNat then true
          else if x.toNat = y.toNat then lexLe xs ys else false) = true ∨
        (if y.toNat < x.toNat then true
          else if y.toNat = x.toNat then lexLe ys xs else false) = true
      rcases Nat.lt_trichotomy x.toNat y.toNat with h | h | h
      · left
        rw [if_pos h]
      · rcases ih ys with h2 | h2
        · left
          rw [if_neg (by omega), if_pos h, h2]
        · right
          rw [if_neg (by omega), if_pos h.symm, h2]
      · right
        rw [if_pos h]

theorem lexLe_trans : ∀ (a b c : List Char),
    lexLe a b = true → lexLe b c = true → lexLe a c = true := by
  intro a
  induction a with
  | nil => intro b c _ _; rfl
  | cons x xs ih =>
    intro b c hab hbc
    cases b with
    | nil => exact absurd hab (by simp [lexLe])
    | cons y ys =>
      cases c with
      | nil => exact absurd hbc (by simp [lexLe])
      | cons z zs =>
        have hab2 : (if x.toNat < y.toNat then true
            else if x.toNat = y.toNat then lexLe xs ys else false) = true := hab
        have hbc2 : (if y.toNat < z.toNat then true
            else if y.toNat = z.toNat then lexLe ys zs else false) = true := hbc
        have hxy : x.toNat < y.toNat ∨
            (x.toNat = y.toNat ∧ lexLe xs ys = true) := by
          by_cases h2 : x.toNat < y.toNat
          · exact Or.inl h2
          · by_cases h3 : x.toNat = y.toNat
            · rw [if_neg h2, if_pos h3] at hab2
              exact Or.inr ⟨h3, hab2⟩
            · rw [if_neg h2, if_neg h3] at hab2
              exact absurd hab2 (by simp)
        have hyz : y.toNat < z.toNat ∨
            (y.toNat = z.toNat ∧ lexLe ys zs = true) := by
          by_cases h2 : y.toNat < z.toNat
          · exact Or.inl h2
          · by_cases h3 : y.toNat = z.toNat
            · rw [if_neg h2, if_pos h3] at hbc2
              exact Or.inr ⟨h3, hbc2⟩
            · rw [if_neg h2, if_neg h3] at hbc2
              exact absurd hbc2 (by simp)
        show (if x.toNat < z.toNat then true
            else if x.toNat = z.toNat then lexLe xs zs else false) = true
        rcases hxy with h1 | ⟨h1, hl1⟩ <;> rcases hyz with h2 | ⟨h2, hl2⟩
        · rw [if_pos (by omega)]
        · rw [if_pos (by omega)]
        · rw [if_pos (by omega)]
        · rw [if_neg (by omega), if_pos (by omega)]
          exact ih ys zs hl1 hl2

theorem strLe_total : ∀ a b : String, strLe a b ∨ strLe b a := by
  intro a b
  exact lexLe_total a.data b.data

theorem strLe_trans : ∀ a b c : String, strLe a b → strLe b c → strLe a c := by
  intro a b c
  exact lexLe_trans a.data b.data c.data

/-! C7: explicit node list. -/

/-- C7: with an explicit ordered node list, `document` reads each named
node's file in exactly the given list order and returns their contents
concatenated in that order, with no separator inserted between nodes. -/
theorem document_nodes_order (fs : Fs) (library docRaw ns docPath : String)
    (paths contents : List String)
    (hdoc : path_append_normal library docRaw = Except.ok docPath)
    (hpaths : buildNodePaths docPath (splitComma ns) = Except.ok paths)
    (hreads : List.Forall₂ (fun p c => fs.readFile p = Except.ok c) paths contents) :
    document fs library docRaw (some ns) = Except.ok (concatAll contents) := by
  unfold document
  rw [hdoc, ok_bind]
  show (buildNodePaths docPath (splitComma ns) >>= fun ps => renderPaths fs ps) = _
  rw [hpaths, ok_bind]
  exact renderPaths_concatAll fs paths contents hreads

theorem document_nodes_order_witness :
    document
      (Fs.mk ["/lib", "/lib/d"]
        [("/lib/d/0.html", "A"), ("/lib/d/1.html", "B"), ("/lib/d/2.html", "C")])
      "/lib" "d" (some "2,0,1") = Except.ok (concatAll ["C", "A", "B"]) ∧
    document
      (Fs.mk ["/lib", "/lib/d"]
        [("/lib/d/0.html", "A"), ("/lib/d/1.html", "B"), ("/lib/d/2.html", "C")])
      "/lib" "d" (some "2,0,1") = Except.ok "CAB" := by
  constructor
  · exact document_nodes_order
      (Fs.mk ["/lib", "/lib/d"]
        [("/lib/d/0.html", "A"), ("/lib/d/1.html", "B"), ("/lib/d/2.html", "C")])
      "/lib" "d" "2,0,1" "/lib/d"
      ["/lib/d/2.html", "/lib/d/0.html", "/lib/d/1.html"] ["C", "A", "B"]
      (by decide) (by decide)
      (List.Forall₂.cons (by decide)
        (List.Forall₂.cons (by decide)
          (List.Forall₂.cons (by decide) List.Forall₂.nil)))
  · decide

/-! C8: default lexicographic order. -/

/-- C8: with no explicit node list, `document` renders the directory
entries in the lexicographic (string) order of their full paths: the read
sequence is a sorted permutation of the entry paths, and the output is the
concatenation of the contents in that sorted order — over entries
`10.html` and `2.html` the content of `10.html` comes first. -/
theorem document_default_order (fs : Fs) (library docRaw docPath : String)
    (entries : List (String × Bool))
    (hdoc : path_append_normal library docRaw = Except.ok docPath)
    (hdir : fs.readDir docPath = Except.ok entries) :
    document fs library docRaw none =
      renderPaths fs (sortStrings (entries.map (fun e => docPath ++ "/" ++ e.1))) ∧
    List.Sorted strLe (sortStrings (entries.map (fun e => docPath ++ "/" ++ e.1))) ∧
    (sortStrings (entries.map (fun e => docPath ++ "/" ++ e.1))).Perm
      (entries.map (fun e => docPath ++ "/" ++ e.1)) ∧
    ∀ contents, List.Forall₂ (fun p c => fs.readFile p = Except.ok c)
        (sortStrings (entries.map (fun e => docPath ++ "/" ++ e.1))) contents →
      document fs library docRaw none = Except.ok (concatAll contents) := by
  have hdoc2 : document fs library docRaw none =
      renderPaths fs (sortStrings (entries.map (fun e => docPath ++ "/" ++ e.1))) := by
    unfold document
    rw [hdoc, ok_bind]
    show (fs.readDir docPath >>= fun ents =>
      renderPaths fs (sortStrings (ents.map (fun e => docPath ++ "/" ++ e.1)))) = _
    rw [hdir, ok_bind]
  refine ⟨hdoc2, ?_, ?_, ?_⟩
  · exact @List.sorted_insertionSort String strLe (fun a b => inferInstance)
      ⟨strLe_total⟩ ⟨strLe_trans⟩ _
  · exact @List.perm_insertionSort String strLe (fun a b => inferInstance) _
  · intro contents hc
    rw [hdoc2]
    exact renderPaths_concatAll fs _ contents hc

theorem document_default_order_witness :
    document (Fs.mk ["/lib", "/lib/d"]
        [("/lib/d/2.html", "Y"), ("/lib/d/10.html", "X")]) "/lib" "d" none =
      renderPaths (Fs.mk ["/lib", "/lib/d"]
        [("/lib/d/2.html", "Y"), ("/lib/d/10.html", "X")])
        (sortStrings ([("2.html", true), ("10.html", true)].map
          (fun e => "/lib/d" ++ "/" ++ e.1))) ∧
    List.Sorted strLe (sortStrings ([("2.html", true), ("10.html", true)].map
      (fun e => "/lib/d" ++ "/" ++ e.1))) ∧
    document (Fs.mk ["/lib", "/lib/d"]
        [("/lib/d/2.html", "Y"), ("/lib/d/10.html", "X")]) "/lib" "d" none =
      Except.ok "XY" := by
  obtain ⟨h1, h2, h3, h4⟩ := document_default_order
    (Fs.mk ["/lib", "/lib/d"] [("/lib/d/2.html", "Y"), ("/lib/d/10.html", "X")])
    "/lib" "d" "/lib/d" [("2.html", true), ("10.html", true)]
    (by decide) (by decide)
  exact ⟨h1, h2, by decide⟩

/-! C10: process configuration. -/

/-- C10 counterexample: in an environment where `PWD` is unset the startup
configuration aborts — `AppState::new` panics on
`env::var("PWD").unwrap()` — even though `LIBRARY` is set, because
`unwrap_or` evaluates its argument eagerly.  The claim that startup never
aborts for any process environment is therefore false. -/
theorem appState_new_aborts :
    AppState.new (some "/somewhere") none (fun s => some s) = none := rfl

/-- C10 amended: in every environment where `PWD` is set, startup never
aborts: the library root is the canonicalization of `LIBRARY` when set,
else of `PWD`, and falls back to `"."` when canonicalization fails; when
`PWD` is unset the process aborts even if `LIBRARY` is set. -/
theorem appState_new_total (libraryVar : Option String) (pwd : String)
    (canonicalize : String → Option String) :
    AppState.new libraryVar (some pwd) canonicalize =
      some (AppState.mk ((canonicalize (libraryVar.getD pwd)).getD ".")) := by
  cases libraryVar with
  | none => rfl
  | some v => rfl

theorem appState_new_total_witness :
    AppState.new (some "/lib") (some "/home") (fun s => some s) =
      some (AppState.mk "/lib") :=
  appState_new_total (some "/lib") "/home" (fun s => some s)

end Pollon
